import Mathlib

/-!
Verification of the Simplicity Bit Machine interpreter
(`src/bit_machine/exec.rs` of rust-simplicity).

The execution engine is embedded shallowly: the byte arena is modelled at bit
granularity as a `List Bool` (the source addresses bits MSB-first inside each
byte; since every frame operation is defined bit-wise, a flat bit array is the
same data in the same order), `usize` arithmetic is `Nat` with explicit guards
where the source's arithmetic can underflow (a Rust panic), and every Rust
panic / assert / out-of-bounds access is an explicit `Fault` in `Except`.

`Frame`, `Value::len` and `Value::from_bits_and_type` are code of the
repository that is not among the provided sources (only `exec.rs` is); they
are modelled from the specification, as marked on each definition.
-/

deriving instance DecidableEq for Except

/-- Fault taxonomy: every `panic!`, failed `assert!`/`assert_eq!`, `unwrap` /
`expect` on an empty frame stack, and out-of-bounds container access of the
source is mapped to one of these unrecoverable faults (spec section 7). -/
inductive Fault
  /-- a primitive frame operation ran with no active frame
      (`expect("Empty ... frame stack")`, `self.write.len() - 1` underflow). -/
  | stackUnderflow
  /-- `drop_frame`'s `assert_eq!(self.next_frame_start, frame.start)` failed
      (this also covers the `usize` underflow of `next_frame_start -= len`). -/
  | accountingFault
  /-- a node's declared type shape disagrees with what its semantics require
      (`panic!("type error")`). -/
  | typeFault
  /-- execution reached a `Hidden` or `Fail` node. -/
  | unreachableNode
  /-- `exec` was invoked with no input frame although the source type has
      nonzero width. -/
  | inputMissing
  /-- a frame cursor operation left the window `[0, len]`. -/
  | frameBounds
  /-- a bit access fell outside the arena (Rust `Vec` index panic). -/
  | arenaBounds
  /-- decoding the output frame failed (`expect("unwrapping output value")`). -/
  | decodeFault
  /-- a child node reference `ip.index - t` underflowed or fell outside the
      node array (Rust index panic). -/
  | nodeIndexFault
  /-- `Disconnect`'s `assert!(size >= 256)` failed. -/
  | disconnectSize
deriving DecidableEq

/-- Modelled from the spec (section 3 / 4.1): a `Frame` is a non-owning window
into the arena, `{start: bit offset, length: bit count, cursor ∈ [0, length]}`.
The source file `bit_machine/frame.rs` is not among the provided sources; the
field names `start` and `len` are the ones `exec.rs` uses. -/
structure Frame where
  start : Nat
  len : Nat
  cursor : Nat
deriving DecidableEq

/-- Modelled from the spec (4.1): `Frame::new(start, len)` with cursor 0,
as pushed by `BitMachine::new_frame`. -/
def Frame.new (start len : Nat) : Frame :=
  { start := start, len := len, cursor := 0 }

/-- Modelled from the spec (4.1): `reset_cursor()`. -/
def Frame.reset_cursor (f : Frame) : Frame :=
  { f with cursor := 0 }

/-- Modelled from the spec (4.1): `peek_bit` reads the bit under the cursor
without advancing; cursor-bounds checked, and the arena access itself must be
in range (a Rust index panic otherwise). -/
def Frame.peek_bit (f : Frame) (data : List Bool) : Except Fault Bool :=
  if f.cursor < f.len then
    match data.get? (f.start + f.cursor) with
    | some b => .ok b
    | none => .error .arenaBounds
  else .error .frameBounds

/-- Modelled from the spec (4.1): `write_bit` stores a bit at the cursor and
advances it by one; cursor-bounds and arena-bounds checked. -/
def Frame.write_bit (f : Frame) (b : Bool) (data : List Bool) :
    Except Fault (Frame × List Bool) :=
  if f.cursor < f.len then
    if f.start + f.cursor < data.length then
      .ok ({ f with cursor := f.cursor + 1 }, data.set (f.start + f.cursor) b)
    else .error .arenaBounds
  else .error .frameBounds

/-- Modelled from the spec (4.1): `move_cursor_forward(n)` fails if the cursor
would leave `[0, length]`. -/
def Frame.move_cursor_forward (f : Frame) (n : Nat) : Except Fault Frame :=
  if f.cursor + n ≤ f.len then .ok { f with cursor := f.cursor + n }
  else .error .frameBounds

/-- Modelled from the spec (4.1): `move_cursor_backward(n)`. -/
def Frame.move_cursor_backward (f : Frame) (n : Nat) : Except Fault Frame :=
  if n ≤ f.cursor then .ok { f with cursor := f.cursor - n }
  else .error .frameBounds

/-- Copy `n` bits of the arena, bit by bit in forward order, from absolute bit
position `src` to absolute bit position `dst` (reads see the writes already
made, as a sequential loop does). -/
def copyBits (data : List Bool) (src dst : Nat) : Nat → List Bool
  | 0 => data
  | n + 1 => copyBits (data.set dst ((data.get? src).getD false)) (src + 1) (dst + 1) n

/-- Modelled from the spec (4.1): `copy_from(other, n)` copies `n` bits
starting at `other`'s cursor into `self` at `self`'s cursor. The spec's prose
says both cursors advance, but the interpreter itself contradicts that: its
`CopyFwd(n)` continuation runs `copy(n)` *followed by* `fwd(n)`, and `Pair`
re-reads the same input region for both children, so the read cursor is not
advanced by a copy; only the write cursor advances. Both windows are
cursor-bounds checked and the arena accesses must be in range. -/
def Frame.copy_from (f other : Frame) (n : Nat) (data : List Bool) :
    Except Fault (Frame × List Bool) :=
  if f.cursor + n ≤ f.len ∧ other.cursor + n ≤ other.len then
    if f.start + f.cursor + n ≤ data.length ∧ other.start + other.cursor + n ≤ data.length then
      .ok ({ f with cursor := f.cursor + n },
           copyBits data (other.start + other.cursor) (f.start + f.cursor) n)
    else .error .arenaBounds
  else .error .frameBounds

/-- Values: an immutable recursive tagged variant (the source's `Value`:
`Unit | SumL(Value) | SumR(Value) | Prod(Value, Value)`). -/
inductive Value
  | unit
  | sumL (a : Value)
  | sumR (a : Value)
  | prod (a b : Value)
deriving DecidableEq

/-- Modelled from the spec (4.2 / 4.3): `Value::len`, the value's serialized
bit length under the pre-order codec — Unit contributes 0 bits, a Sum variant
one discriminant bit plus its payload, a Product the two payloads
back-to-back, with no padding at this layer. (`value.rs` is not among the
provided sources; `BitMachine::input` sizes the input frame by this length.) -/
def Value.len : Value → Nat
  | .unit => 0
  | .sumL a => 1 + a.len
  | .sumR a => 1 + a.len
  | .prod a b => a.len + b.len

/-- Final (completed) types: structurally `Unit | Sum(T,T) | Product(T,T)`
(the source's `FinalTypeInner`). -/
inductive FinalType
  | unit
  | sum (a b : FinalType)
  | prod (a b : FinalType)
deriving DecidableEq

/-- Bit width of a final type: a Sum region occupies one discriminant bit plus
the width of its wider arm, a Product the two widths back-to-back
(the source's `FinalType::bit_width`). -/
def FinalType.bit_width : FinalType → Nat
  | .unit => 0
  | .sum a b => 1 + max a.bit_width b.bit_width
  | .prod a b => a.bit_width + b.bit_width

/-- Modelled from the spec (4.3): `Value::from_bits_and_type` — decoding is
the structural inverse of the pre-order codec, driven by the type shape: Unit
consumes nothing, a Sum consumes its discriminant bit and then decodes the
selected arm, a Product decodes its components back-to-back. Returns the value
and the bits left over, or `none` if the bits run out. -/
def Value.from_bits_and_type : FinalType → List Bool → Option (Value × List Bool)
  | .unit, bs => some (.unit, bs)
  | .sum _ _, [] => none
  | .sum a _, false :: bs =>
    match Value.from_bits_and_type a bs with
    | some (v, rest) => some (.sumL v, rest)
    | none => none
  | .sum _ b, true :: bs =>
    match Value.from_bits_and_type b bs with
    | some (v, rest) => some (.sumR v, rest)
    | none => none
  | .prod a b, bs =>
    match Value.from_bits_and_type a bs with
    | some (va, rest) =>
      match Value.from_bits_and_type b rest with
      | some (vb, rest2) => some (.prod va vb, rest2)
      | none => none
    | none => none

/-- Combinator node kinds (the source's `Term`). Children are given as
relative back-references: a child of the node at index `i` lives at index
`i - t`. The `Ext`/`Jet` capability nodes are out of scope (spec section 1
treats pluggable capabilities as external collaborators) and no claim
involves them, so they are not modelled. `Hidden`'s digest and `Fail`'s
payload only appear in the source's panic messages and are dropped. -/
inductive Term
  | unit
  | iden
  | injl (t : Nat)
  | injr (t : Nat)
  | pair (s t : Nat)
  | comp (s t : Nat)
  | disconnect (s t : Nat)
  | take (t : Nat)
  | drop (t : Nat)
  | case (s t : Nat)
  | witness (v : Value)
  | hidden
  | fail
deriving DecidableEq

/-- One node of a program: its term, its finalized source and target types,
and its commitment Merkle root (`cmr`, 256 bits, used by `Disconnect`). -/
structure Node where
  node : Term
  source_ty : FinalType
  target_ty : FinalType
  cmr : List Bool
deriving DecidableEq

/-- A program: the node array (children precede parents; the root is the last
node) plus the root's precomputed bounds used to size the machine. -/
structure Program where
  nodes : List Node
  extra_cells_bound : Nat
  frame_count_bound : Nat
deriving DecidableEq

/-- Look a node up by index; an out-of-range index is a Rust slice-index
panic in the source. -/
def Program.getNode (p : Program) (i : Nat) : Except Fault Node :=
  match p.nodes.get? i with
  | some nd => .ok nd
  | none => .error .nodeIndexFault

/-- Resolve the relative child reference `i - t`. Rust `usize` subtraction
panics on underflow, so `t > i` is a fault rather than truncation. -/
def subIdx (i t : Nat) : Except Fault Nat :=
  if t ≤ i then .ok (i - t) else .error .nodeIndexFault

/-- The Bit Machine: the arena (`data`, modelled at bit granularity), the
allocation pointer `next_frame_start` (index of the first non-allocated bit),
and the read and write frame stacks (head = top = active frame). -/
structure BitMachine where
  data : List Bool
  next_frame_start : Nat
  read : List Frame
  write : List Frame
deriving DecidableEq

/-- `BitMachine::for_program`: an arena of
`(source_width + target_width + extra_cells_bound + 7) / 8` zeroed bytes
(hence 8 times as many zeroed bits here), allocation pointer 0, empty stacks.
(The stack `Vec` capacity reservations have no observable semantics.) -/
def BitMachine.for_program (p : Program) : BitMachine :=
  { data :=
      List.replicate
        (8 * ((
          (match p.nodes.getLast? with
           | some root => root.source_ty.bit_width + root.target_ty.bit_width
           | none => 0) + p.extra_cells_bound + 7) / 8))
        false
    next_frame_start := 0
    read := []
    write := [] }

/-- `BitMachine::new_frame`: push `Frame::new(next_frame_start, len)` onto the
write stack and advance the allocation pointer by `len`. The source's capacity
assertion is commented out, so this never faults — not even when the new frame
extends past the arena: the allocation itself always succeeds. -/
def BitMachine.new_frame (m : BitMachine) (len : Nat) : BitMachine :=
  { m with write := Frame.new m.next_frame_start len :: m.write
           next_frame_start := m.next_frame_start + len }

/-- `BitMachine::move_frame`: pop the active write frame (`unwrap` — empty
stack is a panic), reset its cursor, push it onto the read stack. -/
def BitMachine.move_frame (m : BitMachine) : Except Fault BitMachine :=
  match m.write with
  | [] => .error .stackUnderflow
  | f :: rest => .ok { m with write := rest, read := f.reset_cursor :: m.read }

/-- `BitMachine::drop_frame`: pop the active read frame, retreat the
allocation pointer by its length, and check (`assert_eq!`) that the pointer
landed exactly on the popped frame's start. The guard `f.len ≤
next_frame_start` captures the `usize` underflow of `-=` (a panic in its own
right, and in release mode the wrapped pointer cannot pass the assertion). -/
def BitMachine.drop_frame (m : BitMachine) : Except Fault BitMachine :=
  match m.read with
  | [] => .error .stackUnderflow
  | f :: rest =>
    if f.len ≤ m.next_frame_start ∧ m.next_frame_start - f.len = f.start then
      .ok { m with read := rest, next_frame_start := m.next_frame_start - f.len }
    else .error .accountingFault

/-- `BitMachine::write_bit`: write one bit through the active write frame. -/
def BitMachine.write_bit (m : BitMachine) (b : Bool) : Except Fault BitMachine :=
  match m.write with
  | [] => .error .stackUnderflow
  | f :: rest =>
    match f.write_bit b m.data with
    | .ok (f2, d2) => .ok { m with write := f2 :: rest, data := d2 }
    | .error e => .error e

/-- `BitMachine::skip`: advance the active write frame's cursor by `n`. -/
def BitMachine.skip (m : BitMachine) (n : Nat) : Except Fault BitMachine :=
  match m.write with
  | [] => .error .stackUnderflow
  | f :: rest =>
    match f.move_cursor_forward n with
    | .ok f2 => .ok { m with write := f2 :: rest }
    | .error e => .error e

/-- `BitMachine::copy`: copy `n` bits from the active read frame to the active
write frame (both stacks are indexed at `len() - 1`, so either being empty is
a panic). -/
def BitMachine.copy (m : BitMachine) (n : Nat) : Except Fault BitMachine :=
  match m.write, m.read with
  | f :: wrest, r :: _ =>
    match f.copy_from r n m.data with
    | .ok (f2, d2) => .ok { m with write := f2 :: wrest, data := d2 }
    | .error e => .error e
  | _, _ => .error .stackUnderflow

/-- `BitMachine::fwd`: move the active read frame's cursor forward by `n`. -/
def BitMachine.fwd (m : BitMachine) (n : Nat) : Except Fault BitMachine :=
  match m.read with
  | [] => .error .stackUnderflow
  | f :: rest =>
    match f.move_cursor_forward n with
    | .ok f2 => .ok { m with read := f2 :: rest }
    | .error e => .error e

/-- `BitMachine::back`: move the active read frame's cursor back by `n`. -/
def BitMachine.back (m : BitMachine) (n : Nat) : Except Fault BitMachine :=
  match m.read with
  | [] => .error .stackUnderflow
  | f :: rest =>
    match f.move_cursor_backward n with
    | .ok f2 => .ok { m with read := f2 :: rest }
    | .error e => .error e

/-- Write a list of bits to the active write frame one by one
(`BitMachine::write_bytes` writing the 256-bit `cmr`, whose big-endian
MSB-first byte order is this bit order). -/
def BitMachine.write_bits (m : BitMachine) : List Bool → Except Fault BitMachine
  | [] => .ok m
  | b :: bs =>
    match m.write_bit b with
    | .ok m1 => m1.write_bits bs
    | .error e => .error e

/-- `BitMachine::write_value`: serialize a value to the active write frame
with the pre-order codec — nothing for Unit, discriminant bit then payload for
a Sum variant, left then right for a Product. -/
def BitMachine.write_value (m : BitMachine) : Value → Except Fault BitMachine
  | .unit => .ok m
  | .sumL a =>
    match m.write_bit false with
    | .ok m1 => m1.write_value a
    | .error e => .error e
  | .sumR a =>
    match m.write_bit true with
    | .ok m1 => m1.write_value a
    | .error e => .error e
  | .prod a b =>
    match m.write_value a with
    | .ok m1 => m1.write_value b
    | .error e => .error e

/-- `BitMachine::input`: allocate a write frame sized to the value's
serialized bit length, encode the value into it, and commit it to the read
stack. -/
def BitMachine.input (m : BitMachine) (v : Value) : Except Fault BitMachine :=
  match (m.new_frame v.len).write_value v with
  | .ok m1 => m1.move_frame
  | .error e => .error e

/-- The interpreter's continuation stack entries (the source's local
`CallStack` enum inside `exec`). -/
inductive CallStack
  | goto (n : Nat)
  | moveFrame
  | dropFrame
  | copyFwd (n : Nat)
  | back (n : Nat)
deriving DecidableEq

/-- Dispatch one combinator node (the body of the source's
`match ip.node { ... }`). `i` is the node's own index (`ip.index`) and the
term is `nd.node`, passed separately so each node kind has its own equation.
The returned continuation list is in execution order: the source pushes the
continuations of each arm in reverse and the stack pops last-pushed first. -/
def BitMachine.execTerm (m : BitMachine) (p : Program) (i : Nat) (nd : Node) :
    Term → Except Fault (BitMachine × List CallStack)
  | .unit => .ok (m, [])
  | .iden =>
    match m.copy nd.source_ty.bit_width with
    | .ok m1 => .ok (m1, [])
    | .error e => .error e
  | .injl t =>
    match m.write_bit false with
    | .error e => .error e
    | .ok m1 =>
      match nd.target_ty with
      | .sum a _ =>
        match m1.skip (nd.target_ty.bit_width - a.bit_width - 1) with
        | .error e => .error e
        | .ok m2 =>
          match subIdx i t with
          | .ok c => .ok (m2, [.goto c])
          | .error e => .error e
      | _ => .error .typeFault
  | .injr t =>
    match m.write_bit true with
    | .error e => .error e
    | .ok m1 =>
      match nd.target_ty with
      | .sum _ b =>
        match m1.skip (nd.target_ty.bit_width - b.bit_width - 1) with
        | .error e => .error e
        | .ok m2 =>
          match subIdx i t with
          | .ok c => .ok (m2, [.goto c])
          | .error e => .error e
      | _ => .error .typeFault
  | .pair s t =>
    match subIdx i s, subIdx i t with
    | .ok cs, .ok ct => .ok (m, [.goto cs, .goto ct])
    | .error e, _ => .error e
    | _, .error e => .error e
  | .comp s t =>
    match subIdx i s, subIdx i t with
    | .ok cs, .ok ct =>
      match p.getNode cs with
      | .error e => .error e
      | .ok snd =>
        .ok (m.new_frame snd.target_ty.bit_width,
             [.goto cs, .moveFrame, .goto ct, .dropFrame])
    | .error e, _ => .error e
    | _, .error e => .error e
  | .disconnect s t =>
    match subIdx i s, subIdx i t with
    | .ok cs, .ok ct =>
      match p.getNode cs, p.getNode ct with
      | .ok snd, .ok tnd =>
        if 256 ≤ snd.source_ty.bit_width then
          match (m.new_frame snd.source_ty.bit_width).write_bits tnd.cmr with
          | .error e => .error e
          | .ok m2 =>
            match m2.copy (snd.source_ty.bit_width - 256) with
            | .error e => .error e
            | .ok m3 =>
              match m3.move_frame with
              | .error e => .error e
              | .ok m4 =>
                .ok (m4.new_frame snd.target_ty.bit_width,
                     [.goto cs, .moveFrame,
                      .copyFwd (snd.target_ty.bit_width - tnd.source_ty.bit_width),
                      .goto ct, .dropFrame, .dropFrame])
        else .error .disconnectSize
      | .error e, _ => .error e
      | _, .error e => .error e
    | .error e, _ => .error e
    | _, .error e => .error e
  | .take t =>
    match subIdx i t with
    | .ok c => .ok (m, [.goto c])
    | .error e => .error e
  | .drop t =>
    match nd.source_ty with
    | .prod a _ =>
      match m.fwd a.bit_width with
      | .error e => .error e
      | .ok m1 =>
        match subIdx i t with
        | .ok c => .ok (m1, [.goto c, .back a.bit_width])
        | .error e => .error e
    | _ => .error .typeFault
  | .case s t =>
    match m.read with
    | [] => .error .stackUnderflow
    | rf :: _ =>
      match rf.peek_bit m.data with
      | .error e => .error e
      | .ok sw =>
        match nd.source_ty with
        | .prod (.sum a b) _ =>
          if sw then
            match m.fwd (1 + max a.bit_width b.bit_width - b.bit_width) with
            | .error e => .error e
            | .ok m1 =>
              match subIdx i t with
              | .ok c =>
                .ok (m1, [.goto c, .back (1 + max a.bit_width b.bit_width - b.bit_width)])
              | .error e => .error e
          else
            match m.fwd (1 + max a.bit_width b.bit_width - a.bit_width) with
            | .error e => .error e
            | .ok m1 =>
              match subIdx i s with
              | .ok c =>
                .ok (m1, [.goto c, .back (1 + max a.bit_width b.bit_width - a.bit_width)])
              | .error e => .error e
        | _ => .error .typeFault
  | .witness v =>
    match m.write_value v with
    | .ok m1 => .ok (m1, [])
    | .error e => .error e
  | .hidden => .error .unreachableNode
  | .fail => .error .unreachableNode

/-- Dispatch the node stored at index `i`. -/
def BitMachine.execNode (m : BitMachine) (p : Program) (i : Nat) (nd : Node) :
    Except Fault (BitMachine × List CallStack) :=
  m.execTerm p i nd nd.node

/-- Execute one continuation-stack entry: `Goto` dispatches a node (looking it
up by index, which panics in the source when out of range), the others are the
frame-administration continuations of the source's inner `match
call_stack.pop()` loop. Returns the new machine plus the continuations the
entry pushed, in execution order. -/
def BitMachine.execCS (m : BitMachine) (p : Program) :
    CallStack → Except Fault (BitMachine × List CallStack)
  | .goto n =>
    match p.getNode n with
    | .ok nd => m.execNode p n nd
    | .error e => .error e
  | .moveFrame =>
    match m.move_frame with
    | .ok m1 => .ok (m1, [])
    | .error e => .error e
  | .dropFrame =>
    match m.drop_frame with
    | .ok m1 => .ok (m1, [])
    | .error e => .error e
  | .copyFwd n =>
    match m.copy n with
    | .error e => .error e
    | .ok m1 =>
      match m1.fwd n with
      | .ok m2 => .ok (m2, [])
      | .error e => .error e
  | .back n =>
    match m.back n with
    | .ok m1 => .ok (m1, [])
    | .error e => .error e

/-- The source's `'main_loop`, fuel-bounded: pop the next continuation,
execute it, prepend what it pushed, and repeat until the stack is empty
(`none` means the fuel ran out before that; the source loop has no bound,
but every claim under proof concerns terminating runs). One unit of fuel is
consumed per continuation-stack entry processed. -/
def run (p : Program) : Nat → BitMachine → List CallStack → Option (Except Fault BitMachine)
  | 0, _, _ => none
  | _ + 1, m, [] => some (.ok m)
  | fuel + 1, m, c :: s =>
    match m.execCS p c with
    | .error e => some (.error e)
    | .ok (m1, pushed) => run p fuel m1 (pushed ++ s)

/-- The bits of the arena that a frame spans (`to_frame_data`, the frame's own
span, read after `reset_cursor`). -/
def frameData (data : List Bool) (f : Frame) : List Bool :=
  (data.drop f.start).take f.len

/-- The part of `BitMachine::exec` after the input-frame precondition check:
allocate the output frame when the target width is nonzero, run the main loop
from the root node, then decode the completed output frame with the root's
target type (or produce `Value::Unit` for a zero-width target). -/
def BitMachine.execBody (m : BitMachine) (p : Program) (fuel : Nat) :
    Option (Except Fault Value) :=
  match p.nodes.getLast? with
  | none => some (.error .nodeIndexFault)
  | some root =>
    let ow := root.target_ty.bit_width
    let m1 := if 0 < ow then m.new_frame ow else m
    match run p fuel m1 [.goto (p.nodes.length - 1)] with
    | none => none
    | some (.error e) => some (.error e)
    | some (.ok m2) =>
      if 0 < ow then
        match m2.write with
        | [] => some (.error .stackUnderflow)
        | f :: _ =>
          if f.start + f.len ≤ m2.data.length then
            match Value.from_bits_and_type root.target_ty (frameData m2.data f) with
            | some (v, _) => some (.ok v)
            | none => some (.error .decodeFault)
          else some (.error .arenaBounds)
      else some (.ok .unit)

/-- `BitMachine::exec`: panic if the root's source type has nonzero width but
no input frame was installed, then run `execBody`. -/
def BitMachine.exec (m : BitMachine) (p : Program) (fuel : Nat) :
    Option (Except Fault Value) :=
  match p.nodes.getLast? with
  | none => some (.error .nodeIndexFault)
  | some root =>
    if 0 < root.source_ty.bit_width ∧ m.read = [] then some (.error .inputMissing)
    else m.execBody p fuel

/-- All frames currently held on the read and write stacks combined. -/
def liveFrames (m : BitMachine) : List Frame :=
  m.read ++ m.write

/-- The set of arena bit positions a frame occupies. -/
def frameIco (f : Frame) : Finset Nat :=
  Finset.Ico f.start (f.start + f.len)

/-- The set of arena bit positions occupied by any frame of the list. -/
def covered : List Frame → Finset Nat
  | [] => ∅
  | f :: fs => frameIco f ∪ covered fs

/-- Sum of the lengths of the frames of the list. -/
def lensSum (fs : List Frame) : Nat :=
  (fs.map Frame.len).sum

/-- No two live frames overlap in the arena. -/
def disjointLive (fs : List Frame) : Prop :=
  fs.Pairwise fun f g => Disjoint (frameIco f) (frameIco g)

/-- The allocator invariant: the allocation pointer equals the total length of
the live frames, which tile the arena prefix `[0, next_frame_start)` with no
overlap. -/
def goodState (m : BitMachine) : Prop :=
  m.next_frame_start = lensSum (liveFrames m) ∧
  covered (liveFrames m) = Finset.range m.next_frame_start ∧
  disjointLive (liveFrames m)

/-- One frame-management operation of the machine's allocator interface. -/
inductive FrameOp
  | newF (len : Nat)
  | moveF
  | dropF
deriving DecidableEq

/-- Apply one frame operation (`new_frame` never faults; `move_frame` and
`drop_frame` fault as the source does). -/
def BitMachine.applyOp (m : BitMachine) : FrameOp → Except Fault BitMachine
  | .newF len => .ok (m.new_frame len)
  | .moveF => m.move_frame
  | .dropF => m.drop_frame

/-- Apply a sequence of frame operations, stopping at the first fault. -/
def BitMachine.runOps (m : BitMachine) : List FrameOp → Except Fault BitMachine
  | [] => .ok m
  | op :: ops =>
    match m.applyOp op with
    | .ok m1 => m1.runOps ops
    | .error e => .error e

/-- The unbalanced sum type `Sum(Unit, Sum(Unit, Unit))`: 2 bits wide, but its
value `Left(Unit)` serializes to a single bit. -/
def tUnbal : FinalType :=
  .sum .unit (.sum .unit .unit)

/-- The value `Left(Unit)`. -/
def vLeftUnit : Value :=
  .sumL .unit

/-- A one-node program: the identity combinator at type `tUnbal`. -/
def pIden : Program :=
  { nodes := [{ node := .iden, source_ty := tUnbal, target_ty := tUnbal, cmr := [] }]
    extra_cells_bound := 0
    frame_count_bound := 0 }

/-- The program `InjL(Unit) : Unit → tUnbal` (node 0 the Unit child, node 1
the root). -/
def pInjl : Program :=
  { nodes :=
      [{ node := .unit, source_ty := .unit, target_ty := .unit, cmr := [] },
       { node := .injl 1, source_ty := .unit, target_ty := tUnbal, cmr := [] }]
    extra_cells_bound := 0
    frame_count_bound := 0 }

/-- The program `Comp(InjL(Unit), Iden) : Unit → tUnbal` (node 0 Unit, node 1
InjL, node 2 Iden, node 3 the Comp root). -/
def pComp : Program :=
  { nodes :=
      [{ node := .unit, source_ty := .unit, target_ty := .unit, cmr := [] },
       { node := .injl 1, source_ty := .unit, target_ty := tUnbal, cmr := [] },
       { node := .iden, source_ty := tUnbal, target_ty := tUnbal, cmr := [] },
       { node := .comp 2 1, source_ty := .unit, target_ty := tUnbal, cmr := [] }]
    extra_cells_bound := 2
    frame_count_bound := 1 }

/-- The spec's concrete scenario: the program `Left(Unit)` with target type
`Sum(Unit, Unit)` and zero-width source (node 0 Unit, node 1 the InjL root). -/
def pLeft : Program :=
  { nodes :=
      [{ node := .unit, source_ty := .unit, target_ty := .unit, cmr := [] },
       { node := .injl 1, source_ty := .unit, target_ty := .sum .unit .unit, cmr := [] }]
    extra_cells_bound := 0
    frame_count_bound := 0 }

/-- A two-node program whose root is a `Drop` over source
`Product(Sum(Unit,Unit), Unit)` (node 0 the Unit child, node 1 the root). -/
def pDrop : Program :=
  { nodes :=
      [{ node := .unit, source_ty := .unit, target_ty := .unit, cmr := [] },
       { node := .drop 1, source_ty := .prod (.sum .unit .unit) .unit, target_ty := .unit,
         cmr := [] }]
    extra_cells_bound := 0
    frame_count_bound := 0 }

/-- A machine state for running `pDrop`'s root: one read frame of 1 bit. -/
def mDrop : BitMachine :=
  { data := [false], next_frame_start := 1, read := [Frame.new 0 1], write := [] }

/-- A two-node program whose root is a `Case` over source
`Product(Sum(Sum(Unit,Unit), Unit), Unit)` — the left arm is 1 bit wide, the
right arm 0 bits — with both children the Unit node (node 0). -/
def pCase : Program :=
  { nodes :=
      [{ node := .unit, source_ty := .unit, target_ty := .unit, cmr := [] },
       { node := .case 1 1,
         source_ty := .prod (.sum (.sum .unit .unit) .unit) .unit, target_ty := .unit,
         cmr := [] }]
    extra_cells_bound := 0
    frame_count_bound := 0 }

/-- A machine state for running `pCase`'s root: one read frame of 2 bits over
a zeroed arena, so the peeked discriminant selects the left (1-bit) arm. -/
def mCase : BitMachine :=
  { data := [false, false], next_frame_start := 2, read := [Frame.new 0 2], write := [] }

/-- The empty program (used below only to exercise the allocator interface on
a freshly constructed machine). -/
def pEmpty : Program :=
  { nodes := [], extra_cells_bound := 0, frame_count_bound := 0 }

/-- Two write stacks with the same frames except that the cursor of the top
frame may differ (node evaluation only ever advances the active write
frame's cursor). -/
def sameTop : List Frame → List Frame → Prop
  | [], [] => True
  | f :: r, g :: s => g.start = f.start ∧ g.len = f.len ∧ s = r
  | _, _ => False

/-- What one complete node evaluation preserves of the machine: the
allocation pointer, the entire read stack (cursors included), and the write
stack up to the active frame's cursor. -/
def Pres (m m2 : BitMachine) : Prop :=
  m2.next_frame_start = m.next_frame_start ∧
  m2.read = m.read ∧
  sameTop m.write m2.write

/-- C4 counterexample: the capacity check of `new_frame` is commented out in
the source, so allocating a 5-bit frame on a machine whose arena holds 0 bits
does not raise a fault at the allocation — it returns normally with the frame
pushed and the allocation pointer advanced past the arena's capacity. Only a
later bit operation through the over-allocated frame faults (second
conjunct). -/
theorem c4_new_frame_counterexample :
    (BitMachine.mk [] 0 [] []).new_frame 5 = BitMachine.mk [] 5 [] [Frame.mk 0 5 0] ∧
    ((BitMachine.mk [] 0 [] []).new_frame 5).write_bit true = .error Fault.arenaBounds := by
  decide

/-- C4 (amended): `new_frame(len)` never checks the arena capacity (the
source's assertion is commented out); for every machine state — over-capacity
or not — it pushes `Frame{start = allocation pointer, length = len, cursor =
0}` onto the write stack, advances the allocation pointer by exactly `len`,
and leaves the read stack and the arena untouched; an out-of-bounds
allocation only faults later, when a bit operation touches arena memory that
does not exist. -/
theorem c4_new_frame_amended (m : BitMachine) (len : Nat) :
    (m.new_frame len).write = Frame.mk m.next_frame_start len 0 :: m.write ∧
    (m.new_frame len).next_frame_start = m.next_frame_start + len ∧
    (m.new_frame len).read = m.read ∧
    (m.new_frame len).data = m.data :=
  ⟨rfl, rfl, rfl, rfl⟩

/-- C5: releasing the active read frame pops it and retreats the allocation
pointer by its length; when that lands exactly on the frame's own start the
release succeeds with the allocation pointer equal to the frame's start, and
any mismatch (including the pointer underflowing) is a fatal accounting
fault. -/
theorem c5_drop_frame_accounting (m : BitMachine) (f : Frame) (rest : List Frame)
    (hread : m.read = f :: rest) :
    (f.len ≤ m.next_frame_start ∧ m.next_frame_start - f.len = f.start →
      m.drop_frame = .ok { m with read := rest, next_frame_start := f.start }) ∧
    (¬ (f.len ≤ m.next_frame_start ∧ m.next_frame_start - f.len = f.start) →
      m.drop_frame = .error Fault.accountingFault) := by
  constructor
  · rintro ⟨h1, h2⟩
    simp only [BitMachine.drop_frame, hread]
    rw [if_pos ⟨h1, h2⟩, h2]
  · intro h
    simp only [BitMachine.drop_frame, hread]
    rw [if_neg h]

/-- Witness for C5 at a concrete machine: one read frame `[0, 3)` and
allocation pointer 3; the release succeeds and returns the pointer to 0. -/
theorem c5_drop_frame_accounting_witness :
    (BitMachine.mk [] 3 [Frame.mk 0 3 0] []).drop_frame = .ok (BitMachine.mk [] 0 [] []) :=
  (c5_drop_frame_accounting (BitMachine.mk [] 3 [Frame.mk 0 3 0] []) (Frame.mk 0 3 0) []
    rfl).1 (by decide)

/-- C7: dispatching a `Hidden` node aborts the whole run at once with
`unreachableNode` — whatever continuations are still pending are discarded
and no machine state (hence no output value) is produced. -/
theorem c7_hidden_aborts (p : Program) (n fuel : Nat) (nd : Node) (m : BitMachine)
    (s : List CallStack) (hget : p.getNode n = .ok nd) (hh : nd.node = Term.hidden)
    (hf : 0 < fuel) :
    run p fuel m (CallStack.goto n :: s) = some (.error Fault.unreachableNode) := by
  obtain ⟨g, rfl⟩ : ∃ g, fuel = g + 1 := ⟨fuel - 1, by omega⟩
  simp [run, BitMachine.execCS, hget, BitMachine.execNode, hh, BitMachine.execTerm]

/-- Witness for C7: a one-node program whose root is `Hidden` aborts. -/
theorem c7_hidden_aborts_witness :
    run { nodes := [{ node := .hidden, source_ty := .unit, target_ty := .unit, cmr := [] }],
          extra_cells_bound := 0, frame_count_bound := 0 }
        3 (BitMachine.mk [] 0 [] []) [.goto 0] = some (.error Fault.unreachableNode) :=
  c7_hidden_aborts
    { nodes := [{ node := .hidden, source_ty := .unit, target_ty := .unit, cmr := [] }],
      extra_cells_bound := 0, frame_count_bound := 0 }
    0 3 { node := .hidden, source_ty := .unit, target_ty := .unit, cmr := [] }
    (BitMachine.mk [] 0 [] []) [] (by decide) rfl (by decide)

/-- C6: when the root's source type has nonzero width and no input read frame
is installed, `exec` aborts with `inputMissing` before dispatching any node
(the result does not depend on the fuel, i.e. no loop iteration happens) and
yields no output value; when the source width is zero, `exec` proceeds
directly to the evaluation body with no input frame required. -/
theorem c6_input_precondition (p : Program) (root : Node) (m : BitMachine) (fuel : Nat)
    (hroot : p.nodes.getLast? = some root) :
    (0 < root.source_ty.bit_width → m.read = [] →
      m.exec p fuel = some (.error Fault.inputMissing)) ∧
    (root.source_ty.bit_width = 0 → m.exec p fuel = m.execBody p fuel) := by
  constructor
  · intro h1 h2
    simp [BitMachine.exec, hroot, h1, h2]
  · intro h0
    simp [BitMachine.exec, hroot, h0]

/-- Witness for C6: the identity program over a 2-bit type, executed on a
freshly constructed machine with no input installed, aborts with
`inputMissing`. -/
theorem c6_input_precondition_witness :
    (BitMachine.for_program pIden).exec pIden 3 = some (.error Fault.inputMissing) :=
  (c6_input_precondition pIden
    { node := .iden, source_ty := tUnbal, target_ty := tUnbal, cmr := [] }
    (BitMachine.for_program pIden) 3 (by decide)).1 (by decide) rfl

/-- C8: the program `Left(Unit) : Unit → Sum(Unit, Unit)` evaluated with no
input frame yields the value `Left(Unit)`, and its completed output frame is
exactly one bit long and holds the single bit 0. -/
theorem c8_left_unit_scenario :
    (BitMachine.for_program pLeft).exec pLeft 10 = some (.ok (Value.sumL Value.unit)) ∧
    run pLeft 10 ((BitMachine.for_program pLeft).new_frame 1) [.goto 1] =
      some (.ok (BitMachine.mk (List.replicate 8 false) 1 [] [Frame.mk 0 1 1])) ∧
    frameData (List.replicate 8 false) (Frame.mk 0 1 1) = [false] := by
  decide

/-- C1 (the code at the claim's failing input): for the identity program over
`Sum(Unit, Sum(Unit, Unit))` — a 2-bit type — installing the value
`Left(Unit)` as input allocates a frame of only 1 bit (`input` sizes the
frame by the value's un-padded serialized length), while `Iden` copies the
full 2-bit type width, so the copy runs off the end of the input frame and
the machine aborts instead of returning the value. -/
theorem c1_iden_roundtrip_aborts :
    ((BitMachine.for_program pIden).input vLeftUnit).map (fun m => m.exec pIden 10) =
      .ok (some (.error Fault.frameBounds)) := by
  decide

/-- C2 (the code at the claim's failing input): with `f = InjL(Unit) : Unit →
Sum(Unit, Sum(Unit, Unit))` and `g = Iden` at that type, evaluating
`Compose(f, g)` yields `Left(Unit)`, and evaluating `f` alone also yields
`Left(Unit)`; but evaluating `g` on that output value aborts (same padding
mismatch as C1), so `evaluate(Compose(f,g))` is *not* `evaluate(g)` applied
to `evaluate(f)`'s output. -/
theorem c2_comp_vs_sequential_aborts :
    (BitMachine.for_program pComp).exec pComp 10 = some (.ok (Value.sumL Value.unit)) ∧
    (BitMachine.for_program pInjl).exec pInjl 10 = some (.ok (Value.sumL Value.unit)) ∧
    ((BitMachine.for_program pIden).input (Value.sumL Value.unit)).map
        (fun m => m.exec pIden 10) =
      .ok (some (.error Fault.frameBounds)) := by
  decide

theorem covered_nil : covered [] = ∅ := rfl

theorem covered_cons (f : Frame) (fs : List Frame) :
    covered (f :: fs) = frameIco f ∪ covered fs := rfl

theorem covered_append (l1 l2 : List Frame) :
    covered (l1 ++ l2) = covered l1 ∪ covered l2 := by
  induction l1 with
  | nil => simp [covered]
  | cons f fs ih => simp [covered, ih, Finset.union_assoc]

theorem lensSum_nil : lensSum [] = 0 := rfl

theorem lensSum_cons (f : Frame) (fs : List Frame) :
    lensSum (f :: fs) = f.len + lensSum fs := by
  simp [lensSum]

theorem lensSum_append (l1 l2 : List Frame) :
    lensSum (l1 ++ l2) = lensSum l1 + lensSum l2 := by
  simp [lensSum]

theorem frameIco_reset (f : Frame) : frameIco f.reset_cursor = frameIco f := rfl

theorem frameIco_subset_covered {g : Frame} : ∀ {fs : List Frame}, g ∈ fs →
    frameIco g ⊆ covered fs := by
  intro fs
  induction fs with
  | nil => intro h; cases h
  | cons f fs ih =>
    intro hg
    rcases List.mem_cons.mp hg with h | h
    · subst h
      exact Finset.subset_union_left.trans (le_of_eq (covered_cons g fs).symm)
    · exact (ih h).trans (Finset.subset_union_right.trans (le_of_eq (covered_cons f fs).symm))

theorem disjoint_covered {f : Frame} : ∀ {fs : List Frame},
    (∀ g ∈ fs, Disjoint (frameIco f) (frameIco g)) →
    Disjoint (frameIco f) (covered fs) := by
  intro fs
  induction fs with
  | nil => intro _; simp [covered]
  | cons g gs ih =>
    intro h
    rw [covered_cons, Finset.disjoint_union_right]
    exact ⟨h g (List.mem_cons_self g gs), ih fun g2 hg2 => h g2 (List.mem_cons_of_mem g hg2)⟩

theorem goodState_new_frame (m : BitMachine) (len : Nat) (h : goodState m) :
    goodState (m.new_frame len) := by
  obtain ⟨hsum, hcov, hdis⟩ := h
  have hlive : liveFrames (m.new_frame len) =
      m.read ++ (Frame.new m.next_frame_start len :: m.write) := rfl
  have hlive0 : liveFrames m = m.read ++ m.write := rfl
  have hset : frameIco (Frame.new m.next_frame_start len) =
      Finset.Ico m.next_frame_start (m.next_frame_start + len) := rfl
  have hIn : ∀ g ∈ liveFrames m, Disjoint (frameIco (Frame.new m.next_frame_start len)) (frameIco g) := by
    intro g hg
    rw [hset, Finset.disjoint_left]
    intro x hx hxg
    have h1 : m.next_frame_start ≤ x := (Finset.mem_Ico.mp hx).1
    have h2 : x ∈ covered (liveFrames m) := frameIco_subset_covered hg hxg
    rw [hcov, Finset.mem_range] at h2
    omega
  refine ⟨?_, ?_, ?_⟩
  · show m.next_frame_start + len = _
    rw [hlive, lensSum_append, lensSum_cons]
    rw [hlive0, lensSum_append] at hsum
    have hlen : (Frame.new m.next_frame_start len).len = len := rfl
    rw [hlen]
    omega
  · show covered (liveFrames (m.new_frame len)) = Finset.range (m.next_frame_start + len)
    rw [hlive, covered_append, covered_cons]
    rw [hlive0, covered_append] at hcov
    have : covered m.read ∪ (frameIco (Frame.new m.next_frame_start len) ∪ covered m.write) =
        frameIco (Frame.new m.next_frame_start len) ∪ (covered m.read ∪ covered m.write) := by
      rw [Finset.union_left_comm]
    rw [this, hcov, hset]
    ext x
    simp only [Finset.mem_union, Finset.mem_Ico, Finset.mem_range]
    omega
  · show List.Pairwise _ (liveFrames (m.new_frame len))
    rw [hlive]
    unfold disjointLive at hdis
    rw [hlive0] at hdis hIn
    rw [List.pairwise_append] at hdis
    rw [List.pairwise_append]
    refine ⟨hdis.1, ?_, ?_⟩
    · rw [List.pairwise_cons]
      exact ⟨fun g hg => hIn g (List.mem_append_right _ hg), hdis.2.1⟩
    · intro a ha b hb
      rcases List.mem_cons.mp hb with h | h
      · subst h
        exact (hIn a (List.mem_append_left _ ha)).symm
      · exact hdis.2.2 a ha b h

theorem goodState_move_frame (m m2 : BitMachine) (h : goodState m)
    (hm : m.move_frame = .ok m2) : goodState m2 := by
  obtain ⟨hsum, hcov, hdis⟩ := h
  match hw : m.write with
  | [] => simp only [BitMachine.move_frame, hw] at hm; cases hm
  | f :: rest =>
    simp only [BitMachine.move_frame, hw] at hm
    cases hm
    have hlive0 : liveFrames m = m.read ++ (f :: rest) := by rw [liveFrames, hw]
    have hperm : List.Perm (m.read ++ (f :: rest)) (f :: (m.read ++ rest)) := List.perm_middle
    refine ⟨?_, ?_, ?_⟩
    · show m.next_frame_start = lensSum (f.reset_cursor :: m.read ++ rest)
      rw [hlive0, lensSum_append, lensSum_cons] at hsum
      have : lensSum (f.reset_cursor :: (m.read ++ rest)) =
          f.len + (lensSum m.read + lensSum rest) := by
        rw [lensSum_cons, lensSum_append]; rfl
      rw [show (f.reset_cursor :: m.read ++ rest : List Frame) =
        f.reset_cursor :: (m.read ++ rest) from rfl, this]
      omega
    · show covered (f.reset_cursor :: m.read ++ rest) = _
      rw [hlive0, covered_append, covered_cons] at hcov
      rw [show (f.reset_cursor :: m.read ++ rest : List Frame) =
        f.reset_cursor :: (m.read ++ rest) from rfl, covered_cons, covered_append,
        frameIco_reset, Finset.union_left_comm] at *
      rw [← hcov]
      rw [Finset.union_left_comm]
    · show List.Pairwise _ (f.reset_cursor :: m.read ++ rest)
      unfold disjointLive at hdis
      rw [hlive0] at hdis
      have h2 : List.Pairwise (fun f g => Disjoint (frameIco f) (frameIco g))
          (f :: (m.read ++ rest)) :=
        (hperm.pairwise_iff fun h => h.symm).mp hdis
      rw [List.pairwise_cons] at h2
      rw [show (f.reset_cursor :: m.read ++ rest : List Frame) =
        f.reset_cursor :: (m.read ++ rest) from rfl, List.pairwise_cons]
      refine ⟨fun g hg => ?_, h2.2⟩
      rw [frameIco_reset]
      exact h2.1 g hg

theorem goodState_drop_frame (m m2 : BitMachine) (h : goodState m)
    (hd : m.drop_frame = .ok m2) : goodState m2 := by
  obtain ⟨hsum, hcov, hdis⟩ := h
  match hr : m.read with
  | [] => simp only [BitMachine.drop_frame, hr] at hd; cases hd
  | f :: rest =>
    simp only [BitMachine.drop_frame, hr] at hd
    by_cases hg : f.len ≤ m.next_frame_start ∧ m.next_frame_start - f.len = f.start
    · rw [if_pos hg] at hd
      cases hd
      have hlive0 : liveFrames m = f :: (rest ++ m.write) := by rw [liveFrames, hr]; rfl
      rw [hlive0, lensSum_cons] at hsum
      rw [hlive0, covered_cons] at hcov
      unfold disjointLive at hdis
      rw [hlive0, List.pairwise_cons] at hdis
      have hdisj : Disjoint (frameIco f) (covered (rest ++ m.write)) :=
        disjoint_covered hdis.1
      refine ⟨?_, ?_, hdis.2⟩
      · show m.next_frame_start - f.len = lensSum (rest ++ m.write)
        omega
      · show covered (rest ++ m.write) = Finset.range (m.next_frame_start - f.len)
        have h1 : covered (rest ++ m.write) =
            (frameIco f ∪ covered (rest ++ m.write)) \ frameIco f :=
          (Finset.union_sdiff_cancel_left hdisj).symm
        rw [h1, hcov]
        have h2 : frameIco f = Finset.Ico (m.next_frame_start - f.len) m.next_frame_start := by
          rw [frameIco, ← hg.2]
          congr 1
          omega
        rw [h2]
        ext x
        simp only [Finset.mem_sdiff, Finset.mem_range, Finset.mem_Ico]
        omega
    · rw [if_neg hg] at hd; cases hd

theorem goodState_applyOp (m m2 : BitMachine) (op : FrameOp) (h : goodState m)
    (ha : m.applyOp op = .ok m2) : goodState m2 := by
  cases op with
  | newF len =>
    have : m2 = m.new_frame len := by
      rw [BitMachine.applyOp] at ha; cases ha; rfl
    rw [this]
    exact goodState_new_frame m len h
  | moveF => exact goodState_move_frame m m2 h ha
  | dropF => exact goodState_drop_frame m m2 h ha

theorem goodState_runOps : ∀ (ops : List FrameOp) (m m2 : BitMachine), goodState m →
    m.runOps ops = .ok m2 → goodState m2 := by
  intro ops
  induction ops with
  | nil =>
    intro m m2 h hr
    rw [BitMachine.runOps] at hr
    cases hr
    exact h
  | cons op ops ih =>
    intro m m2 h hr
    rw [BitMachine.runOps] at hr
    match ha : m.applyOp op with
    | .ok m1 =>
      rw [ha] at hr
      exact ih m1 m2 (goodState_applyOp m m1 op h ha) hr
    | .error e => rw [ha] at hr; cases hr

theorem goodState_for_program (p : Program) : goodState (BitMachine.for_program p) := by
  refine ⟨rfl, rfl, ?_⟩
  exact List.Pairwise.nil

/-- C9: after any successful sequence of frame operations on a freshly
constructed machine, the allocation pointer equals the sum of the lengths of
all frames held on the read and write stacks combined, and the live frames
tile the arena prefix `[0, next_frame_start)` — their occupied bit positions
are exactly that range, with no two frames overlapping. -/
theorem c9_allocation_invariant (p : Program) (ops : List FrameOp) (m2 : BitMachine)
    (h : (BitMachine.for_program p).runOps ops = .ok m2) :
    m2.next_frame_start = lensSum (liveFrames m2) ∧
    covered (liveFrames m2) = Finset.range m2.next_frame_start ∧
    disjointLive (liveFrames m2) :=
  goodState_runOps ops (BitMachine.for_program p) m2 (goodState_for_program p) h

/-- Witness for C9: allocate 2 bits, commit, allocate 1 bit, commit, release
the 1-bit frame; the pointer returns to 2 = the length of the remaining live
frame, which covers exactly `[0, 2)`. -/
theorem c9_allocation_invariant_witness :
    (BitMachine.for_program pEmpty).runOps [.newF 2, .moveF, .newF 1, .moveF, .dropF] =
      .ok (BitMachine.mk [] 2 [Frame.mk 0 2 0] []) ∧
    ((BitMachine.mk [] 2 [Frame.mk 0 2 0] []).next_frame_start =
        lensSum (liveFrames (BitMachine.mk [] 2 [Frame.mk 0 2 0] [])) ∧
      covered (liveFrames (BitMachine.mk [] 2 [Frame.mk 0 2 0] [])) =
        Finset.range (BitMachine.mk [] 2 [Frame.mk 0 2 0] []).next_frame_start ∧
      disjointLive (liveFrames (BitMachine.mk [] 2 [Frame.mk 0 2 0] []))) :=
  ⟨by decide,
   c9_allocation_invariant pEmpty [.newF 2, .moveF, .newF 1, .moveF, .dropF]
     (BitMachine.mk [] 2 [Frame.mk 0 2 0] []) (by decide)⟩

theorem sameTop_refl : ∀ (l : List Frame), sameTop l l
  | [] => trivial
  | _ :: _ => ⟨rfl, rfl, rfl⟩

theorem sameTop_trans : ∀ {a b c : List Frame}, sameTop a b → sameTop b c → sameTop a c
  | [], [], [], _, _ => trivial
  | _ :: _, _ :: _, _ :: _, ⟨h1, h2, h3⟩, ⟨h4, h5, h6⟩ =>
    ⟨h4.trans h1, h5.trans h2, h6.trans h3⟩

theorem sameTop_cons {f : Frame} {r l2 : List Frame} (h : sameTop (f :: r) l2) :
    ∃ g, l2 = g :: r ∧ g.start = f.start ∧ g.len = f.len := by
  match l2 with
  | [] => exact (h : False).elim
  | g :: s =>
    obtain ⟨h1, h2, h3⟩ := h
    exact ⟨g, by rw [h3], h1, h2⟩

theorem Pres_refl (m : BitMachine) : Pres m m :=
  ⟨rfl, rfl, sameTop_refl m.write⟩

theorem Pres_trans {a b c : BitMachine} (h1 : Pres a b) (h2 : Pres b c) : Pres a c :=
  ⟨h2.1.trans h1.1, h2.2.1.trans h1.2.1, sameTop_trans h1.2.2 h2.2.2⟩

theorem Frame.write_bit_shape {f : Frame} {b : Bool} {data : List Bool} {f2 : Frame}
    {d2 : List Bool} (h : f.write_bit b data = .ok (f2, d2)) :
    f2.start = f.start ∧ f2.len = f.len := by
  unfold Frame.write_bit at h
  split at h
  · split at h
    · cases h; exact ⟨rfl, rfl⟩
    · cases h
  · cases h

theorem Frame.move_cursor_forward_ok {f : Frame} {n : Nat} {f2 : Frame}
    (h : f.move_cursor_forward n = .ok f2) :
    f.cursor + n ≤ f.len ∧ f2 = { f with cursor := f.cursor + n } := by
  unfold Frame.move_cursor_forward at h
  split at h
  · cases h; exact ⟨by assumption, rfl⟩
  · cases h

theorem Frame.move_cursor_backward_ok {f : Frame} {n : Nat} {f2 : Frame}
    (h : f.move_cursor_backward n = .ok f2) :
    n ≤ f.cursor ∧ f2 = { f with cursor := f.cursor - n } := by
  unfold Frame.move_cursor_backward at h
  split at h
  · cases h; exact ⟨by assumption, rfl⟩
  · cases h

theorem Frame.copy_from_shape {f other : Frame} {n : Nat} {data : List Bool} {f2 : Frame}
    {d2 : List Bool} (h : f.copy_from other n data = .ok (f2, d2)) :
    f2.start = f.start ∧ f2.len = f.len := by
  unfold Frame.copy_from at h
  split at h
  · split at h
    · cases h; exact ⟨rfl, rfl⟩
    · cases h
  · cases h

theorem write_bit_pres {m : BitMachine} {b : Bool} {m2 : BitMachine}
    (h : m.write_bit b = .ok m2) : Pres m m2 := by
  match hw : m.write with
  | [] => simp only [BitMachine.write_bit, hw] at h; cases h
  | f :: rest =>
    simp only [BitMachine.write_bit, hw] at h
    match hf : f.write_bit b m.data with
    | .ok (f2, d2) =>
      rw [hf] at h
      cases h
      obtain ⟨hs, hl⟩ := Frame.write_bit_shape hf
      exact ⟨rfl, rfl, by rw [hw]; exact ⟨hs, hl, rfl⟩⟩
    | .error e => rw [hf] at h; cases h

theorem skip_pres {m : BitMachine} {n : Nat} {m2 : BitMachine}
    (h : m.skip n = .ok m2) : Pres m m2 := by
  match hw : m.write with
  | [] => simp only [BitMachine.skip, hw] at h; cases h
  | f :: rest =>
    simp only [BitMachine.skip, hw] at h
    match hf : f.move_cursor_forward n with
    | .ok f2 =>
      rw [hf] at h
      cases h
      obtain ⟨_, hf2⟩ := Frame.move_cursor_forward_ok hf
      exact ⟨rfl, rfl, by rw [hw, hf2]; exact ⟨rfl, rfl, rfl⟩⟩
    | .error e => rw [hf] at h; cases h

theorem copy_pres {m : BitMachine} {n : Nat} {m2 : BitMachine}
    (h : m.copy n = .ok m2) : Pres m m2 := by
  match hw : m.write, hr : m.read with
  | [], _ => simp only [BitMachine.copy, hw] at h; cases h
  | f :: wrest, [] => simp only [BitMachine.copy, hw, hr] at h; cases h
  | f :: wrest, r :: rrest =>
    simp only [BitMachine.copy, hw, hr] at h
    match hf : f.copy_from r n m.data with
    | .ok (f2, d2) =>
      rw [hf] at h
      cases h
      obtain ⟨hs, hl⟩ := Frame.copy_from_shape hf
      exact ⟨rfl, hr.symm, by rw [hw]; exact ⟨hs, hl, rfl⟩⟩
    | .error e => rw [hf] at h; cases h

theorem write_bits_pres : ∀ (bs : List Bool) {m m2 : BitMachine},
    m.write_bits bs = .ok m2 → Pres m m2 := by
  intro bs
  induction bs with
  | nil =>
    intro m m2 h
    rw [BitMachine.write_bits] at h
    cases h
    exact Pres_refl m
  | cons b bs ih =>
    intro m m2 h
    rw [BitMachine.write_bits] at h
    match hb : m.write_bit b with
    | .ok m1 =>
      rw [hb] at h
      exact Pres_trans (write_bit_pres hb) (ih h)
    | .error e => rw [hb] at h; cases h

theorem write_value_pres : ∀ (v : Value) {m m2 : BitMachine},
    m.write_value v = .ok m2 → Pres m m2 := by
  intro v
  induction v with
  | unit =>
    intro m m2 h
    rw [BitMachine.write_value] at h
    cases h
    exact Pres_refl m
  | sumL a ih =>
    intro m m2 h
    rw [BitMachine.write_value] at h
    match hb : m.write_bit false with
    | .ok m1 => rw [hb] at h; exact Pres_trans (write_bit_pres hb) (ih h)
    | .error e => rw [hb] at h; cases h
  | sumR a ih =>
    intro m m2 h
    rw [BitMachine.write_value] at h
    match hb : m.write_bit true with
    | .ok m1 => rw [hb] at h; exact Pres_trans (write_bit_pres hb) (ih h)
    | .error e => rw [hb] at h; cases h
  | prod a b iha ihb =>
    intro m m2 h
    rw [BitMachine.write_value] at h
    match ha : m.write_value a with
    | .ok m1 => rw [ha] at h; exact Pres_trans (iha ha) (ihb h)
    | .error e => rw [ha] at h; cases h

theorem move_frame_ok {m m2 : BitMachine} (h : m.move_frame = .ok m2) :
    ∃ f rest, m.write = f :: rest ∧
      m2 = { m with write := rest, read := f.reset_cursor :: m.read } := by
  match hw : m.write with
  | [] => simp only [BitMachine.move_frame, hw] at h; cases h
  | f :: rest =>
    simp only [BitMachine.move_frame, hw] at h
    cases h
    exact ⟨f, rest, rfl, rfl⟩

theorem drop_frame_ok {m m2 : BitMachine} (h : m.drop_frame = .ok m2) :
    ∃ f rest, m.read = f :: rest ∧ f.len ≤ m.next_frame_start ∧
      m.next_frame_start - f.len = f.start ∧
      m2 = { m with read := rest, next_frame_start := m.next_frame_start - f.len } := by
  match hr : m.read with
  | [] => simp only [BitMachine.drop_frame, hr] at h; cases h
  | f :: rest =>
    simp only [BitMachine.drop_frame, hr] at h
    split at h
    · cases h
      rename_i hg
      exact ⟨f, rest, rfl, hg.1, hg.2, rfl⟩
    · cases h

theorem fwd_ok {m : BitMachine} {n : Nat} {m2 : BitMachine} (h : m.fwd n = .ok m2) :
    ∃ f rest, m.read = f :: rest ∧ f.cursor + n ≤ f.len ∧
      m2 = { m with read := { f with cursor := f.cursor + n } :: rest } := by
  match hr : m.read with
  | [] => simp only [BitMachine.fwd, hr] at h; cases h
  | f :: rest =>
    simp only [BitMachine.fwd, hr] at h
    match hf : f.move_cursor_forward n with
    | .ok f2 =>
      rw [hf] at h
      cases h
      obtain ⟨hle, hf2⟩ := Frame.move_cursor_forward_ok hf
      exact ⟨f, rest, rfl, hle, by rw [hf2]⟩
    | .error e => rw [hf] at h; cases h

theorem back_ok {m : BitMachine} {n : Nat} {m2 : BitMachine} (h : m.back n = .ok m2) :
    ∃ f rest, m.read = f :: rest ∧ n ≤ f.cursor ∧
      m2 = { m with read := { f with cursor := f.cursor - n } :: rest } := by
  match hr : m.read with
  | [] => simp only [BitMachine.back, hr] at h; cases h
  | f :: rest =>
    simp only [BitMachine.back, hr] at h
    match hf : f.move_cursor_backward n with
    | .ok f2 =>
      rw [hf] at h
      cases h
      obtain ⟨hle, hf2⟩ := Frame.move_cursor_backward_ok hf
      exact ⟨f, rest, rfl, hle, by rw [hf2]⟩
    | .error e => rw [hf] at h; cases h

theorem run_fuel_pos {p : Program} {f : Nat} {m : BitMachine} {s : List CallStack}
    {r : Except Fault BitMachine} (h : run p f m s = some r) : 1 ≤ f := by
  match f with
  | 0 => cases h
  | g + 1 => omega

theorem run_nil {p : Program} {f : Nat} {m : BitMachine} {r : Except Fault BitMachine}
    (h : run p f m [] = some r) : r = .ok m := by
  match f with
  | 0 => cases h
  | g + 1 =>
    rw [run] at h
    cases h
    rfl

theorem run_single {p : Program} {f : Nat} {m : BitMachine} {c : CallStack}
    {m2 : BitMachine} (h : run p f m [c] = some (.ok m2)) :
    ∃ g m1 pushed, m.execCS p c = .ok (m1, pushed) ∧
      run p g m1 pushed = some (.ok m2) ∧ g < f := by
  match f with
  | 0 => cases h
  | g + 1 =>
    rw [run] at h
    match hc : m.execCS p c with
    | .error e => simp only [hc] at h; cases h
    | .ok (m1, pushed) =>
      simp only [hc, List.append_nil] at h
      exact ⟨g, m1, pushed, rfl, h, by omega⟩

theorem run_split (p : Program) : ∀ (f : Nat) (K L : List CallStack) (m m2 : BitMachine),
    run p f m (K ++ L) = some (.ok m2) →
    ∃ f1 f2 m1, run p f1 m K = some (.ok m1) ∧ run p f2 m1 L = some (.ok m2) ∧
      f1 + f2 = f + 1 := by
  intro f
  induction f with
  | zero => intro K L m m2 h; cases h
  | succ g ih =>
    intro K L m m2 h
    match K with
    | [] =>
      refine ⟨1, g + 1, m, rfl, h, by omega⟩
    | c :: K2 =>
      rw [List.cons_append, run] at h
      match hc : m.execCS p c with
      | .error e => simp only [hc] at h; cases h
      | .ok (m1, pushed) =>
        simp only [hc] at h
        rw [← List.append_assoc] at h
        obtain ⟨f1, f2, mm, h1, h2, hf⟩ := ih (pushed ++ K2) L m1 m2 h
        refine ⟨f1 + 1, f2, mm, ?_, h2, by omega⟩
        rw [run]
        simp only [hc]
        exact h1

theorem execCS_goto_ok {m : BitMachine} {p : Program} {n : Nat} {m1 : BitMachine}
    {pushed : List CallStack} (h : m.execCS p (.goto n) = .ok (m1, pushed)) :
    ∃ nd, p.getNode n = .ok nd ∧ m.execNode p n nd = .ok (m1, pushed) := by
  simp only [BitMachine.execCS] at h
  match hn : p.getNode n with
  | .ok nd => rw [hn] at h; exact ⟨nd, rfl, h⟩
  | .error e => simp only [hn] at h; cases h

theorem execCS_moveFrame_ok {m : BitMachine} {p : Program} {m1 : BitMachine}
    {pushed : List CallStack} (h : m.execCS p .moveFrame = .ok (m1, pushed)) :
    m.move_frame = .ok m1 ∧ pushed = [] := by
  simp only [BitMachine.execCS] at h
  match hm : m.move_frame with
  | .ok mm => simp only [hm] at h; cases h; exact ⟨rfl, rfl⟩
  | .error e => simp only [hm] at h; cases h

theorem execCS_dropFrame_ok {m : BitMachine} {p : Program} {m1 : BitMachine}
    {pushed : List CallStack} (h : m.execCS p .dropFrame = .ok (m1, pushed)) :
    m.drop_frame = .ok m1 ∧ pushed = [] := by
  simp only [BitMachine.execCS] at h
  match hm : m.drop_frame with
  | .ok mm => simp only [hm] at h; cases h; exact ⟨rfl, rfl⟩
  | .error e => simp only [hm] at h; cases h

theorem execCS_back_ok {m : BitMachine} {p : Program} {n : Nat} {m1 : BitMachine}
    {pushed : List CallStack} (h : m.execCS p (.back n) = .ok (m1, pushed)) :
    m.back n = .ok m1 ∧ pushed = [] := by
  simp only [BitMachine.execCS] at h
  match hm : m.back n with
  | .ok mm => simp only [hm] at h; cases h; exact ⟨rfl, rfl⟩
  | .error e => simp only [hm] at h; cases h

theorem execCS_copyFwd_ok {m : BitMachine} {p : Program} {n : Nat} {m1 : BitMachine}
    {pushed : List CallStack} (h : m.execCS p (.copyFwd n) = .ok (m1, pushed)) :
    ∃ mc, m.copy n = .ok mc ∧ mc.fwd n = .ok m1 ∧ pushed = [] := by
  simp only [BitMachine.execCS] at h
  match hm : m.copy n with
  | .ok mc =>
    simp only [hm] at h
    match hf : mc.fwd n with
    | .ok mf => simp only [hf] at h; cases h; exact ⟨mc, rfl, hf, rfl⟩
    | .error e => simp only [hf] at h; cases h
  | .error e => simp only [hm] at h; cases h

theorem run_single_moveFrame {p : Program} {f : Nat} {m m2 : BitMachine}
    (h : run p f m [.moveFrame] = some (.ok m2)) : m.move_frame = .ok m2 := by
  obtain ⟨g, m1, pushed, hc, hrest, _⟩ := run_single h
  obtain ⟨hm, hp⟩ := execCS_moveFrame_ok hc
  subst hp
  have h2 := run_nil hrest
  cases h2
  exact hm

theorem run_single_dropFrame {p : Program} {f : Nat} {m m2 : BitMachine}
    (h : run p f m [.dropFrame] = some (.ok m2)) : m.drop_frame = .ok m2 := by
  obtain ⟨g, m1, pushed, hc, hrest, _⟩ := run_single h
  obtain ⟨hm, hp⟩ := execCS_dropFrame_ok hc
  subst hp
  have h2 := run_nil hrest
  cases h2
  exact hm

theorem run_single_back {p : Program} {f n : Nat} {m m2 : BitMachine}
    (h : run p f m [.back n] = some (.ok m2)) : m.back n = .ok m2 := by
  obtain ⟨g, m1, pushed, hc, hrest, _⟩ := run_single h
  obtain ⟨hm, hp⟩ := execCS_back_ok hc
  subst hp
  have h2 := run_nil hrest
  cases h2
  exact hm

theorem run_single_copyFwd {p : Program} {f n : Nat} {m m2 : BitMachine}
    (h : run p f m [.copyFwd n] = some (.ok m2)) :
    ∃ mc, m.copy n = .ok mc ∧ mc.fwd n = .ok m2 := by
  obtain ⟨g, m1, pushed, hc, hrest, _⟩ := run_single h
  obtain ⟨mc, hm, hf, hp⟩ := execCS_copyFwd_ok hc
  subst hp
  have h2 := run_nil hrest
  cases h2
  exact ⟨mc, hm, hf⟩

theorem fwd_run_back_pres {p : Program} {m mf m2 : BitMachine} {k g c : Nat} (F : Nat)
    (IH : ∀ f2, f2 < F → ∀ (n : Nat) (ma mb : BitMachine),
      run p f2 ma [CallStack.goto n] = some (.ok mb) → Pres ma mb)
    (hg : g < F)
    (hfwd : m.fwd k = .ok mf)
    (hrest : run p g mf [CallStack.goto c, CallStack.back k] = some (.ok m2)) :
    Pres m m2 := by
  obtain ⟨f1, f2, mA, h1, h2, hf12⟩ :=
    run_split p g [CallStack.goto c] [CallStack.back k] mf m2 hrest
  have hfp2 := run_fuel_pos h2
  have hpres : Pres mf mA := IH f1 (by omega) c mf mA h1
  have hback := run_single_back h2
  obtain ⟨⟨f0s, f0l, f0c⟩, rest0, hr0, hb0, hmf⟩ := fwd_ok hfwd
  obtain ⟨fB, restB, hrA, hbB, hm2⟩ := back_ok hback
  have hmfr : mf.read = Frame.mk f0s f0l (f0c + k) :: rest0 := by rw [hmf]
  have hcons : Frame.mk f0s f0l (f0c + k) :: rest0 = fB :: restB := by
    rw [← hmfr, ← hpres.2.1, hrA]
  injection hcons with hfB hrestB
  refine ⟨?_, ?_, ?_⟩
  · rw [hm2]
    show mA.next_frame_start = m.next_frame_start
    rw [hpres.1, hmf]
  · rw [hm2]
    show { fB with cursor := fB.cursor - k } :: restB = m.read
    rw [hr0, ← hfB, ← hrestB]
    have : ({ Frame.mk f0s f0l (f0c + k) with cursor := f0c + k - k } : Frame) =
        Frame.mk f0s f0l f0c := by
      simp
    rw [this]
  · rw [hm2]
    show sameTop m.write mA.write
    have hmw : mf.write = m.write := by rw [hmf]
    rw [← hmw]
    exact hpres.2.2

theorem comp_push_pres {p : Program} {m m2 : BitMachine} {w g : Nat} {cs ct : Nat} (F : Nat)
    (IH : ∀ f2, f2 < F → ∀ (n : Nat) (ma mb : BitMachine),
      run p f2 ma [CallStack.goto n] = some (.ok mb) → Pres ma mb)
    (hg : g < F)
    (hrest : run p g (m.new_frame w)
      [CallStack.goto cs, CallStack.moveFrame, CallStack.goto ct, CallStack.dropFrame] =
      some (.ok m2)) :
    Pres m m2 := by
  obtain ⟨f1, fr, mA, h1, hrest1, hfA⟩ :=
    run_split p g [CallStack.goto cs]
      [CallStack.moveFrame, CallStack.goto ct, CallStack.dropFrame] (m.new_frame w) m2 hrest
  have hq0 := run_fuel_pos h1
  have hq1 := run_fuel_pos hrest1
  have hpresA : Pres (m.new_frame w) mA := IH f1 (by omega) cs _ mA h1
  obtain ⟨f2, fr2, mB, hmv, hrest2, hfB⟩ :=
    run_split p fr [CallStack.moveFrame] [CallStack.goto ct, CallStack.dropFrame] mA m2 hrest1
  have hq2 := run_fuel_pos hrest2
  have hq2b := run_fuel_pos hmv
  have hmvB : mA.move_frame = .ok mB := run_single_moveFrame hmv
  obtain ⟨fC, fD, mC, h3, h4, hfC⟩ :=
    run_split p fr2 [CallStack.goto ct] [CallStack.dropFrame] mB m2 hrest2
  have hq3 := run_fuel_pos h4
  have hpresC : Pres mB mC := IH fC (by omega) ct mB mC h3
  have hdropD := run_single_dropFrame h4
  have hsA : sameTop (Frame.new m.next_frame_start w :: m.write) mA.write := hpresA.2.2
  obtain ⟨gA, hwAeq, hgs, hgl⟩ := sameTop_cons hsA
  obtain ⟨fA, restA, hwA, hmBdef⟩ := move_frame_ok hmvB
  rw [hwAeq] at hwA
  injection hwA with hfA2 hrestA2
  have hreadA : mA.read = m.read := hpresA.2.1
  have hnfsA : mA.next_frame_start = m.next_frame_start + w := hpresA.1
  have hreadB : mB.read = fA.reset_cursor :: m.read := by rw [hmBdef, hreadA]
  have hwriteB : mB.write = m.write := by rw [hmBdef, ← hrestA2]
  have hnfsB : mB.next_frame_start = m.next_frame_start + w := by rw [hmBdef]; exact hnfsA
  obtain ⟨fD2, restD2, hrC, hlenD, hstartD, hm2def⟩ := drop_frame_ok hdropD
  have hreadC : mC.read = fA.reset_cursor :: m.read := by rw [hpresC.2.1, hreadB]
  rw [hreadC] at hrC
  injection hrC with hfD2 hrestD2
  have hnfsC : mC.next_frame_start = m.next_frame_start + w := by rw [hpresC.1, hnfsB]
  have hlenfA : fA.len = w := by rw [← hfA2]; exact hgl
  refine ⟨?_, ?_, ?_⟩
  · rw [hm2def]
    show mC.next_frame_start - fD2.len = m.next_frame_start
    have hlfD : fD2.len = w := by rw [← hfD2]; exact hlenfA
    omega
  · rw [hm2def]
    show restD2 = m.read
    exact hrestD2.symm
  · rw [hm2def]
    show sameTop m.write mC.write
    rw [← hwriteB]
    exact hpresC.2.2

theorem disconnect_push_pres {p : Program} {m mX mY mZ m2 : BitMachine}
    {size sts b g : Nat} {cs ct : Nat} {cmr : List Bool} (F : Nat)
    (IH : ∀ f2, f2 < F → ∀ (n : Nat) (ma mb : BitMachine),
      run p f2 ma [CallStack.goto n] = some (.ok mb) → Pres ma mb)
    (hg : g < F)
    (hwb : (m.new_frame size).write_bits cmr = .ok mX)
    (hcp : mX.copy (size - 256) = .ok mY)
    (hmv : mY.move_frame = .ok mZ)
    (hrest : run p g (mZ.new_frame sts)
      [CallStack.goto cs, CallStack.moveFrame, CallStack.copyFwd b,
       CallStack.goto ct, CallStack.dropFrame, CallStack.dropFrame] = some (.ok m2)) :
    Pres m m2 := by
  have hP1 : Pres (m.new_frame size) mY :=
    Pres_trans (write_bits_pres cmr hwb) (copy_pres hcp)
  have hsI : sameTop (Frame.new m.next_frame_start size :: m.write) mY.write := hP1.2.2
  obtain ⟨gI, hwYeq, hgIs, hgIl⟩ := sameTop_cons hsI
  obtain ⟨fI, restI, hwY, hmZdef⟩ := move_frame_ok hmv
  rw [hwYeq] at hwY
  injection hwY with hfI hrestI
  have hreadY : mY.read = m.read := hP1.2.1
  have hnfsY : mY.next_frame_start = m.next_frame_start + size := hP1.1
  have hreadZ : mZ.read = fI.reset_cursor :: m.read := by rw [hmZdef, hreadY]
  have hwriteZ : mZ.write = m.write := by rw [hmZdef, ← hrestI]
  have hnfsZ : mZ.next_frame_start = m.next_frame_start + size := by rw [hmZdef]; exact hnfsY
  -- process the six pushed continuations
  obtain ⟨f1, fr1, mA, h1, hrest1, hfu1⟩ :=
    run_split p g [CallStack.goto cs]
      [CallStack.moveFrame, CallStack.copyFwd b, CallStack.goto ct,
       CallStack.dropFrame, CallStack.dropFrame] (mZ.new_frame sts) m2 hrest
  have hq0 := run_fuel_pos h1
  have hq1 := run_fuel_pos hrest1
  have hpresA : Pres (mZ.new_frame sts) mA := IH f1 (by omega) cs _ mA h1
  obtain ⟨f2, fr2, mB, hmv2, hrest2, hfu2⟩ :=
    run_split p fr1 [CallStack.moveFrame]
      [CallStack.copyFwd b, CallStack.goto ct, CallStack.dropFrame, CallStack.dropFrame]
      mA m2 hrest1
  have hq2 := run_fuel_pos hrest2
  have hmvB : mA.move_frame = .ok mB := run_single_moveFrame hmv2
  obtain ⟨f3, fr3, mCc, hcf, hrest3, hfu3⟩ :=
    run_split p fr2 [CallStack.copyFwd b]
      [CallStack.goto ct, CallStack.dropFrame, CallStack.dropFrame] mB m2 hrest2
  have hq3 := run_fuel_pos hrest3
  obtain ⟨mc, hcp2, hfwd2⟩ := run_single_copyFwd hcf
  have hq2b := run_fuel_pos hmv2
  have hq3b := run_fuel_pos hcf
  obtain ⟨f4, fr4, mD, h4, hrest4, hfu4⟩ :=
    run_split p fr3 [CallStack.goto ct]
      [CallStack.dropFrame, CallStack.dropFrame] mCc m2 hrest3
  have hq4 := run_fuel_pos hrest4
  have hpresD : Pres mCc mD := IH f4 (by omega) ct mCc mD h4
  obtain ⟨f5, f6, mE, h5, h6, hfu5⟩ :=
    run_split p fr4 [CallStack.dropFrame] [CallStack.dropFrame] mD m2 hrest4
  have hdrop1 : mD.drop_frame = .ok mE := run_single_dropFrame h5
  have hdrop2 : mE.drop_frame = .ok m2 := run_single_dropFrame h6
  -- shape of mA
  have hsO : sameTop (Frame.new (mZ.next_frame_start) sts :: mZ.write) mA.write := hpresA.2.2
  obtain ⟨gO, hwAeq, hgOs, hgOl⟩ := sameTop_cons hsO
  have hreadA : mA.read = fI.reset_cursor :: m.read := by
    have h0 : mA.read = mZ.read := hpresA.2.1
    rw [h0, hreadZ]
  have hnfsA : mA.next_frame_start = m.next_frame_start + size + sts := by
    have h0 : mA.next_frame_start = mZ.next_frame_start + sts := hpresA.1
    rw [h0, hnfsZ]
  -- mB
  obtain ⟨fO, restO, hwA, hmBdef⟩ := move_frame_ok hmvB
  rw [hwAeq, hwriteZ] at hwA
  injection hwA with hfO hrestO
  have hreadB : mB.read = fO.reset_cursor :: fI.reset_cursor :: m.read := by
    rw [hmBdef, hreadA]
  have hwriteB : mB.write = m.write := by rw [hmBdef, ← hrestO]
  have hnfsB : mB.next_frame_start = m.next_frame_start + size + sts := by
    rw [hmBdef]; exact hnfsA
  -- copyFwd: copy then fwd
  have hpresc : Pres mB mc := copy_pres hcp2
  obtain ⟨fF, restF, hrc, hbF, hmCcdef⟩ := fwd_ok hfwd2
  have hreadc : mc.read = fO.reset_cursor :: fI.reset_cursor :: m.read := by
    rw [hpresc.2.1, hreadB]
  rw [hreadc] at hrc
  injection hrc with hfF hrestF
  have hreadCc : mCc.read =
      { fF with cursor := fF.cursor + b } :: fI.reset_cursor :: m.read := by
    rw [hmCcdef, ← hrestF]
  have hnfsCc : mCc.next_frame_start = m.next_frame_start + size + sts := by
    rw [hmCcdef]
    show mc.next_frame_start = _
    rw [hpresc.1, hnfsB]
  have hwriteCc : sameTop m.write mCc.write := by
    rw [hmCcdef]
    show sameTop m.write mc.write
    rw [← hwriteB]
    exact hpresc.2.2
  -- mD
  have hreadD : mD.read =
      { fF with cursor := fF.cursor + b } :: fI.reset_cursor :: m.read := by
    rw [hpresD.2.1, hreadCc]
  have hnfsD : mD.next_frame_start = m.next_frame_start + size + sts := by
    rw [hpresD.1, hnfsCc]
  have hwriteD : sameTop m.write mD.write :=
    sameTop_trans hwriteCc hpresD.2.2
  -- first dropFrame
  obtain ⟨f5f, rest5f, hrD, hlen5, hstart5, hmEdef⟩ := drop_frame_ok hdrop1
  rw [hreadD] at hrD
  injection hrD with hf5 hrest5
  have hlenfF : fF.len = sts := by
    rw [← hfF]
    show fO.reset_cursor.len = sts
    show fO.len = sts
    rw [← hfO]
    exact hgOl
  have hlen5f : f5f.len = sts := by
    rw [← hf5]
    exact hlenfF
  have hreadE : mE.read = fI.reset_cursor :: m.read := by
    rw [hmEdef, ← hrest5]
  have hnfsE : mE.next_frame_start = m.next_frame_start + size := by
    rw [hmEdef]
    show mD.next_frame_start - f5f.len = _
    omega
  have hwriteE : sameTop m.write mE.write := by
    rw [hmEdef]
    exact hwriteD
  -- second dropFrame
  obtain ⟨f6f, rest6f, hrE, hlen6, hstart6, hm2def⟩ := drop_frame_ok hdrop2
  rw [hreadE] at hrE
  injection hrE with hf6 hrest6
  have hlen6f : f6f.len = size := by
    rw [← hf6]
    show fI.len = size
    rw [← hfI]
    exact hgIl
  refine ⟨?_, ?_, ?_⟩
  · rw [hm2def]
    show mE.next_frame_start - f6f.len = m.next_frame_start
    omega
  · rw [hm2def]
    show rest6f = m.read
    exact hrest6.symm
  · rw [hm2def]
    exact hwriteE

theorem run_goto_pres (p : Program) : ∀ (f n : Nat) (m m2 : BitMachine),
    run p f m [CallStack.goto n] = some (.ok m2) → Pres m m2 := by
  intro f
  induction f using Nat.strong_induction_on with
  | _ f IH =>
  intro n m m2 h
  obtain ⟨g, m1, pushed, hc, hrest, hg⟩ := run_single h
  obtain ⟨nd, hget, hex⟩ := execCS_goto_ok hc
  rw [BitMachine.execNode] at hex
  match ht : nd.node with
  | .unit =>
    rw [ht] at hex
    simp only [BitMachine.execTerm] at hex
    cases hex
    cases run_nil hrest
    exact Pres_refl m
  | .iden =>
    rw [ht] at hex
    simp only [BitMachine.execTerm] at hex
    match hcopy : m.copy nd.source_ty.bit_width with
    | .ok mc =>
      simp only [hcopy] at hex
      cases hex
      cases run_nil hrest
      exact copy_pres hcopy
    | .error e => simp only [hcopy] at hex; cases hex
  | .take t =>
    rw [ht] at hex
    simp only [BitMachine.execTerm] at hex
    match hs : subIdx n t with
    | .ok c =>
      simp only [hs] at hex
      cases hex
      exact IH g hg c m m2 hrest
    | .error e => simp only [hs] at hex; cases hex
  | .witness v =>
    rw [ht] at hex
    simp only [BitMachine.execTerm] at hex
    match hwv : m.write_value v with
    | .ok mw =>
      simp only [hwv] at hex
      cases hex
      cases run_nil hrest
      exact write_value_pres v hwv
    | .error e => simp only [hwv] at hex; cases hex
  | .hidden =>
    rw [ht] at hex
    simp only [BitMachine.execTerm] at hex
    cases hex
  | .fail =>
    rw [ht] at hex
    simp only [BitMachine.execTerm] at hex
    cases hex
  | .injl t =>
    rw [ht] at hex
    simp only [BitMachine.execTerm] at hex
    match hwb : m.write_bit false with
    | .error e => simp only [hwb] at hex; cases hex
    | .ok mw =>
      simp only [hwb] at hex
      match hty : nd.target_ty with
      | .unit => rw [hty] at hex; simp only [BitMachine.execTerm] at hex; cases hex
      | .prod a b => rw [hty] at hex; simp only [BitMachine.execTerm] at hex; cases hex
      | .sum a b =>
        rw [hty] at hex
        simp only [BitMachine.execTerm] at hex
        match hsk : mw.skip ((FinalType.sum a b).bit_width - a.bit_width - 1) with
        | .error e => simp only [hsk] at hex; cases hex
        | .ok ms =>
          simp only [hsk] at hex
          match hs : subIdx n t with
          | .error e => simp only [hs] at hex; cases hex
          | .ok c =>
            simp only [hs] at hex
            cases hex
            exact Pres_trans (Pres_trans (write_bit_pres hwb) (skip_pres hsk))
              (IH g hg c _ m2 hrest)
  | .injr t =>
    rw [ht] at hex
    simp only [BitMachine.execTerm] at hex
    match hwb : m.write_bit true with
    | .error e => simp only [hwb] at hex; cases hex
    | .ok mw =>
      simp only [hwb] at hex
      match hty : nd.target_ty with
      | .unit => rw [hty] at hex; simp only [BitMachine.execTerm] at hex; cases hex
      | .prod a b => rw [hty] at hex; simp only [BitMachine.execTerm] at hex; cases hex
      | .sum a b =>
        rw [hty] at hex
        simp only [BitMachine.execTerm] at hex
        match hsk : mw.skip ((FinalType.sum a b).bit_width - b.bit_width - 1) with
        | .error e => simp only [hsk] at hex; cases hex
        | .ok ms =>
          simp only [hsk] at hex
          match hs : subIdx n t with
          | .error e => simp only [hs] at hex; cases hex
          | .ok c =>
            simp only [hs] at hex
            cases hex
            exact Pres_trans (Pres_trans (write_bit_pres hwb) (skip_pres hsk))
              (IH g hg c _ m2 hrest)
  | .pair s t =>
    rw [ht] at hex
    simp only [BitMachine.execTerm] at hex
    match hs : subIdx n s, hst : subIdx n t with
    | .error e, _ => simp only [hs] at hex; cases hex
    | .ok cs, .error e => simp only [hs, hst] at hex; cases hex
    | .ok cs, .ok ct =>
      simp only [hs, hst] at hex
      cases hex
      obtain ⟨f1, f2, mm, h1, h2, hf⟩ :=
        run_split p g [CallStack.goto cs] [CallStack.goto ct] m m2 hrest
      have hp1 := run_fuel_pos h1
      have hp2 := run_fuel_pos h2
      exact Pres_trans (IH f1 (by omega) cs m mm h1) (IH f2 (by omega) ct mm m2 h2)
  | .comp s t =>
    rw [ht] at hex
    simp only [BitMachine.execTerm] at hex
    match hs : subIdx n s, hst : subIdx n t with
    | .error e, _ => simp only [hs] at hex; cases hex
    | .ok cs, .error e => simp only [hs, hst] at hex; cases hex
    | .ok cs, .ok ct =>
      simp only [hs, hst] at hex
      match hn2 : p.getNode cs with
      | .error e => simp only [hn2] at hex; cases hex
      | .ok snd =>
        simp only [hn2] at hex
        cases hex
        exact comp_push_pres f IH hg hrest
  | .disconnect s t =>
    rw [ht] at hex
    simp only [BitMachine.execTerm] at hex
    match hs : subIdx n s, hst : subIdx n t with
    | .error e, _ => simp only [hs] at hex; cases hex
    | .ok cs, .error e => simp only [hs, hst] at hex; cases hex
    | .ok cs, .ok ct =>
      simp only [hs, hst] at hex
      match hn2 : p.getNode cs, hn3 : p.getNode ct with
      | .error e, _ => simp only [hn2] at hex; cases hex
      | .ok snd, .error e => simp only [hn2, hn3] at hex; cases hex
      | .ok snd, .ok tnd =>
        simp only [hn2, hn3] at hex
        split at hex
        · match hwb : (m.new_frame snd.source_ty.bit_width).write_bits tnd.cmr with
          | .error e => simp only [hwb] at hex; cases hex
          | .ok mX =>
            simp only [hwb] at hex
            match hcp : mX.copy (snd.source_ty.bit_width - 256) with
            | .error e => simp only [hcp] at hex; cases hex
            | .ok mY =>
              simp only [hcp] at hex
              match hmv : mY.move_frame with
              | .error e => simp only [hmv] at hex; cases hex
              | .ok mZ =>
                simp only [hmv] at hex
                cases hex
                exact disconnect_push_pres f IH hg hwb hcp hmv hrest
        · cases hex
  | .drop t =>
    rw [ht] at hex
    simp only [BitMachine.execTerm] at hex
    match hty : nd.source_ty with
    | .unit => rw [hty] at hex; simp only [BitMachine.execTerm] at hex; cases hex
    | .sum a b => rw [hty] at hex; simp only [BitMachine.execTerm] at hex; cases hex
    | .prod a b =>
      rw [hty] at hex
      simp only [BitMachine.execTerm] at hex
      match hfwd : m.fwd a.bit_width with
      | .error e => simp only [hfwd] at hex; cases hex
      | .ok mf =>
        simp only [hfwd] at hex
        match hsx : subIdx n t with
        | .error e => simp only [hsx] at hex; cases hex
        | .ok c =>
          simp only [hsx] at hex
          cases hex
          exact fwd_run_back_pres f IH hg hfwd hrest
  | .case s t =>
    rw [ht] at hex
    simp only [BitMachine.execTerm] at hex
    match hread : m.read with
    | [] => simp only [hread] at hex; cases hex
    | rf :: rrest =>
      simp only [hread] at hex
      match hpk : rf.peek_bit m.data with
      | .error e => simp only [hpk] at hex; cases hex
      | .ok sw =>
        simp only [hpk] at hex
        match hty : nd.source_ty with
        | .unit => rw [hty] at hex; simp only [BitMachine.execTerm] at hex; cases hex
        | .sum a b => rw [hty] at hex; simp only [BitMachine.execTerm] at hex; cases hex
        | .prod tA tC =>
          rw [hty] at hex
          match tA with
          | .unit => simp only [BitMachine.execTerm] at hex; cases hex
          | .prod x y => simp only [BitMachine.execTerm] at hex; cases hex
          | .sum a b =>
            simp only [BitMachine.execTerm] at hex
            split at hex
            · match hfwd : m.fwd (1 + max a.bit_width b.bit_width - b.bit_width) with
              | .error e => simp only [hfwd] at hex; cases hex
              | .ok mf =>
                simp only [hfwd] at hex
                match hsx : subIdx n t with
                | .error e => simp only [hsx] at hex; cases hex
                | .ok c =>
                  simp only [hsx] at hex
                  cases hex
                  exact fwd_run_back_pres f IH hg hfwd hrest
            · match hfwd : m.fwd (1 + max a.bit_width b.bit_width - a.bit_width) with
              | .error e => simp only [hfwd] at hex; cases hex
              | .ok mf =>
                simp only [hfwd] at hex
                match hsx : subIdx n s with
                | .error e => simp only [hsx] at hex; cases hex
                | .ok c =>
                  simp only [hsx] at hex
                  cases hex
                  exact fwd_run_back_pres f IH hg hfwd hrest

/-- C10: for every `Drop` node and `Case` node, the forward cursor advance
performed at dispatch and the scheduled `Back` continuation carry the same bit
count `k` (second conjunct), and when the node's evaluation completes
normally the active read frame's cursor — indeed the whole read stack — is
exactly what it was at dispatch (first conjunct). -/
theorem c10_cursor_restoration (p : Program) (n fuel : Nat) (nd : Node) (m m2 : BitMachine)
    (hget : p.getNode n = .ok nd)
    (hkind : (∃ t, nd.node = Term.drop t) ∨ ∃ s t, nd.node = Term.case s t)
    (hrun : run p fuel m [CallStack.goto n] = some (.ok m2)) :
    m2.read = m.read ∧
    (∀ m1 pushed, m.execNode p n nd = .ok (m1, pushed) →
      ∃ k c rf rest, m.read = rf :: rest ∧
        m1.read = { rf with cursor := rf.cursor + k } :: rest ∧
        pushed = [CallStack.goto c, CallStack.back k]) := by
  refine ⟨(run_goto_pres p fuel n m m2 hrun).2.1, ?_⟩
  intro m1 pushed hex
  rw [BitMachine.execNode] at hex
  rcases hkind with ⟨t, ht⟩ | ⟨s, t, ht⟩
  · rw [ht] at hex
    simp only [BitMachine.execTerm] at hex
    match hty : nd.source_ty with
    | .unit => rw [hty] at hex; simp only [BitMachine.execTerm] at hex; cases hex
    | .sum a b => rw [hty] at hex; simp only [BitMachine.execTerm] at hex; cases hex
    | .prod a b =>
      rw [hty] at hex
      simp only [BitMachine.execTerm] at hex
      match hfwd : m.fwd a.bit_width with
      | .error e => simp only [hfwd] at hex; cases hex
      | .ok mf =>
        simp only [hfwd] at hex
        match hsx : subIdx n t with
        | .error e => simp only [hsx] at hex; cases hex
        | .ok c =>
          simp only [hsx] at hex
          cases hex
          obtain ⟨rf, rest, hr, hb, hmf⟩ := fwd_ok hfwd
          exact ⟨a.bit_width, c, rf, rest, hr, by rw [hmf], rfl⟩
  · rw [ht] at hex
    simp only [BitMachine.execTerm] at hex
    match hread : m.read with
    | [] => simp only [hread] at hex; cases hex
    | rf0 :: rrest =>
      simp only [hread] at hex
      match hpk : rf0.peek_bit m.data with
      | .error e => simp only [hpk] at hex; cases hex
      | .ok sw =>
        simp only [hpk] at hex
        match hty : nd.source_ty with
        | .unit => rw [hty] at hex; simp only [BitMachine.execTerm] at hex; cases hex
        | .sum a b => rw [hty] at hex; simp only [BitMachine.execTerm] at hex; cases hex
        | .prod tA tC =>
          rw [hty] at hex
          match tA with
          | .unit => simp only [BitMachine.execTerm] at hex; cases hex
          | .prod x y => simp only [BitMachine.execTerm] at hex; cases hex
          | .sum a b =>
            simp only [BitMachine.execTerm] at hex
            split at hex
            · match hfwd : m.fwd (1 + max a.bit_width b.bit_width - b.bit_width) with
              | .error e => simp only [hfwd] at hex; cases hex
              | .ok mf =>
                simp only [hfwd] at hex
                match hsx : subIdx n t with
                | .error e => simp only [hsx] at hex; cases hex
                | .ok c =>
                  simp only [hsx] at hex
                  cases hex
                  obtain ⟨rf, rest, hr, hb, hmf⟩ := fwd_ok hfwd
                  rw [hread] at hr
                  exact ⟨1 + max a.bit_width b.bit_width - b.bit_width, c, rf, rest, hr,
                    by rw [hmf], rfl⟩
            · match hfwd : m.fwd (1 + max a.bit_width b.bit_width - a.bit_width) with
              | .error e => simp only [hfwd] at hex; cases hex
              | .ok mf =>
                simp only [hfwd] at hex
                match hsx : subIdx n s with
                | .error e => simp only [hsx] at hex; cases hex
                | .ok c =>
                  simp only [hsx] at hex
                  cases hex
                  obtain ⟨rf, rest, hr, hb, hmf⟩ := fwd_ok hfwd
                  rw [hread] at hr
                  exact ⟨1 + max a.bit_width b.bit_width - a.bit_width, c, rf, rest, hr,
                    by rw [hmf], rfl⟩

/-- C3 (amended): for a `Case` node over source `Product(Sum(A,B), C)` whose
peeked discriminant is `b`, the interpreter advances the active read frame's
cursor forward by exactly `1 + max(A_w, B_w) - (chosen arm's width)` — the
discriminant bit plus the Sum region's padding for the chosen arm, so the
cursor lands where the chosen arm's payload begins (not where `C`'s bits
begin) — and schedules a seek-back of that same amount; when the whole node
evaluation completes normally the cursor is back exactly at its dispatch
position, the start of the Sum region. -/
theorem c3_case_cursor_amended (p : Program) (i s t fuel : Nat) (nd : Node)
    (A B C : FinalType) (m m1 mEnd : BitMachine) (pushed : List CallStack)
    (rf : Frame) (rest : List Frame) (b : Bool) (c : Nat)
    (hkind : nd.node = Term.case s t)
    (hty : nd.source_ty = FinalType.prod (FinalType.sum A B) C)
    (hread : m.read = rf :: rest)
    (hpeek : rf.peek_bit m.data = .ok b)
    (hsub : subIdx i (if b then t else s) = .ok c)
    (hex : m.execNode p i nd = .ok (m1, pushed)) :
    m1.read =
      { rf with cursor := rf.cursor +
          (1 + max A.bit_width B.bit_width - (if b then B.bit_width else A.bit_width)) }
        :: rest ∧
    pushed = [CallStack.goto c,
      CallStack.back
        (1 + max A.bit_width B.bit_width - (if b then B.bit_width else A.bit_width))] ∧
    (run p fuel m [CallStack.goto i] = some (.ok mEnd) → mEnd.read = m.read) := by
  rw [BitMachine.execNode, hkind] at hex
  simp only [BitMachine.execTerm] at hex
  rw [hread] at hex
  simp only [] at hex
  rw [hpeek] at hex
  simp only [] at hex
  rw [hty] at hex
  simp only [BitMachine.execTerm] at hex
  match b with
  | true =>
    simp only [if_true] at hex hsub ⊢
    match hfwd : m.fwd (1 + max A.bit_width B.bit_width - B.bit_width) with
    | .error e => simp only [hfwd] at hex; cases hex
    | .ok mf =>
      simp only [hfwd] at hex
      rw [hsub] at hex
      cases hex
      obtain ⟨rf2, rest2, hr2, hb2, hmf⟩ := fwd_ok hfwd
      rw [hread] at hr2
      injection hr2 with hrf2 hrest2
      subst hrf2
      subst hrest2
      refine ⟨by rw [hmf], rfl, ?_⟩
      intro hrun
      exact (run_goto_pres p fuel i m mEnd hrun).2.1
  | false =>
    simp only [Bool.false_eq_true, if_false] at hex hsub ⊢
    match hfwd : m.fwd (1 + max A.bit_width B.bit_width - A.bit_width) with
    | .error e => simp only [hfwd] at hex; cases hex
    | .ok mf =>
      simp only [hfwd] at hex
      rw [hsub] at hex
      cases hex
      obtain ⟨rf2, rest2, hr2, hb2, hmf⟩ := fwd_ok hfwd
      rw [hread] at hr2
      injection hr2 with hrf2 hrest2
      subst hrf2
      subst hrest2
      refine ⟨by rw [hmf], rfl, ?_⟩
      intro hrun
      exact (run_goto_pres p fuel i m mEnd hrun).2.1


/-- C3 counterexample: at a concrete `Case` node over source
`Product(Sum(Sum(Unit,Unit), Unit), Unit)` with the discriminant bit 0 (left
arm, width 1), the interpreter advances the cursor by `1 + max(1,0) - 1 = 1`
bit — landing at position 1, where the chosen arm's payload begins — and not
by the discriminant plus the chosen arm's own width (`1 + 1 = 2`, where `C`'s
bits begin), contradicting the claim's description of the advance. -/
theorem c3_case_cursor_counterexample :
    mCase.execNode pCase 1
        { node := .case 1 1,
          source_ty := .prod (.sum (.sum .unit .unit) .unit) .unit, target_ty := .unit,
          cmr := [] } =
      .ok ({ mCase with read := [Frame.mk 0 2 1] }, [.goto 0, .back 1]) ∧
    (Frame.mk 0 2 1).cursor ≠ 1 + (FinalType.sum FinalType.unit FinalType.unit).bit_width := by
  decide

/-- Witness for the amended C3 at the concrete `Case` program `pCase`: the
hypotheses hold at discriminant bit 0, and the completed node run restores
the read stack. -/
theorem c3_case_cursor_amended_witness :
    run pCase 5 mCase [CallStack.goto 1] = some (.ok mCase) ∧ mCase.read = mCase.read :=
  ⟨by decide,
   (c3_case_cursor_amended pCase 1 1 1 5
      { node := .case 1 1,
        source_ty := .prod (.sum (.sum .unit .unit) .unit) .unit, target_ty := .unit,
        cmr := [] }
      (.sum .unit .unit) .unit .unit mCase
      { mCase with read := [Frame.mk 0 2 1] } mCase [.goto 0, .back 1]
      (Frame.new 0 2) [] false 0 rfl rfl rfl (by decide) (by decide) (by decide)).2.2
     (by decide)⟩

/-- Witness for C10 at the concrete `Drop` program `pDrop`: the node's run
completes and the read stack is restored. -/
theorem c10_cursor_restoration_witness :
    run pDrop 5 mDrop [CallStack.goto 1] = some (.ok mDrop) ∧ mDrop.read = mDrop.read :=
  ⟨by decide,
   (c10_cursor_restoration pDrop 1 5
      { node := .drop 1, source_ty := .prod (.sum .unit .unit) .unit, target_ty := .unit,
        cmr := [] }
      mDrop mDrop (by decide) (Or.inl ⟨1, rfl⟩) (by decide)).1⟩
